import Mathlib

namespace AutoPrdgen

/-!
Shallow embedding of the task dependency graph subsystem of `prd_creator.py`:
task records, the task map, dependency mutation with cycle prevention
(`add_task_dependency`, `would_create_circular_dependency` / `has_path`),
the validation pass (`validate_all_dependencies`) and the availability
ranker (`find_next_available_task`).
-/

/-- A task record, restricted to the fields the dependency-graph algorithms
read: `id` (mandatory in the source: the task map is built as
`{task['id']: task for task in tasks}`), `status` and `priority`
(read with `.get`, hence optional), and `dependencies`
(read with `.get('dependencies', [])`, a missing list behaves as `[]`). -/
structure Task where
  id : Nat
  status : Option String
  priority : Option String
  dependencies : List Nat
deriving DecidableEq, Repr

/-- Lookup in the task map `{task['id']: task for task in tasks}`:
a Python dict comprehension lets later entries shadow earlier ones,
so lookup returns the last list entry carrying the requested id. -/
def dictGet (m : List Task) (i : Nat) : Option Task :=
  m.reverse.find? (fun t => t.id == i)

/-- The set of ids that are keys of the task map. -/
def taskUniverse (m : List Task) : Finset Nat :=
  (m.map Task.id).toFinset

mutual

/-- Embeds `has_path(from_id, to_id)` from `would_create_circular_dependency`:
returns `True` when `from_id == to_id`, `False` when `from_id` was already
visited, otherwise marks `from_id` visited and recurses over the dependency
list of the task the map holds at `from_id` (no task: `False`).
The mutable `visited` set of the source is threaded explicitly; the
returned set is certified to contain the incoming one (Python only ever
adds to `visited`), which bounds the recursion. -/
def hasPathFrom (m : List Task) (tgt u : Nat) (visited : Finset Nat) :
    Bool × {v : Finset Nat // visited ⊆ v} :=
  if u = tgt then (true, ⟨visited, Finset.Subset.refl _⟩)
  else if hu : u ∈ visited then (false, ⟨visited, Finset.Subset.refl _⟩)
  else
    match hd : dictGet m u with
    | none => (false, ⟨insert u visited, Finset.subset_insert _ _⟩)
    | some t =>
      match hasPathList m tgt t.dependencies (insert u visited) with
      | (b, w) => (b, ⟨w.1, Finset.Subset.trans (Finset.subset_insert _ _) w.2⟩)
termination_by ((taskUniverse m \ visited).card, 0)
decreasing_by
  apply Prod.Lex.left
  have huniv : u ∈ taskUniverse m := by
    have h1 : t ∈ m.reverse := List.mem_of_find?_eq_some hd
    have h2 := List.find?_some hd
    simp only [taskUniverse, List.mem_toFinset, List.mem_map]
    exact ⟨t, by simpa using h1, by simpa using h2⟩
  have hmem : u ∈ taskUniverse m \ visited := Finset.mem_sdiff.mpr ⟨huniv, hu⟩
  have hss : taskUniverse m \ insert u visited ⊂ taskUniverse m \ visited := by
    have he : taskUniverse m \ insert u visited = (taskUniverse m \ visited).erase u := by
      ext x
      simp only [Finset.mem_sdiff, Finset.mem_insert, Finset.mem_erase]
      tauto
    rw [he]
    exact Finset.erase_ssubset hmem
  exact Finset.card_lt_card hss

/-- The `for dep_id in task.get('dependencies', [])` loop of `has_path`:
tries each dependency in order, short-circuiting on the first `True`,
threading the growing visited set through the successive calls. -/
def hasPathList (m : List Task) (tgt : Nat) (ds : List Nat) (visited : Finset Nat) :
    Bool × {v : Finset Nat // visited ⊆ v} :=
  match ds with
  | [] => (false, ⟨visited, Finset.Subset.refl _⟩)
  | d :: rest =>
    match hasPathFrom m tgt d visited with
    | (true, w) => (true, w)
    | (false, w) =>
      match hasPathList m tgt rest w.1 with
      | (b, w2) => (b, ⟨w2.1, Finset.Subset.trans w.2 w2.2⟩)
termination_by ((taskUniverse m \ visited).card, ds.length + 1)
decreasing_by
  · apply Prod.Lex.right
    omega
  · have hle : (taskUniverse m \ w.1).card ≤ (taskUniverse m \ visited).card := by
      apply Finset.card_le_card
      exact Finset.sdiff_subset_sdiff (Finset.Subset.refl _) w.2
    rcases Nat.lt_or_ge (taskUniverse m \ w.1).card (taskUniverse m \ visited).card with h | h
    · exact Prod.Lex.left _ _ h
    · have heq : (taskUniverse m \ w.1).card = (taskUniverse m \ visited).card := by omega
      rw [heq]
      apply Prod.Lex.right
      simp only [List.length_cons]
      omega

end

/-- Embeds `would_create_circular_dependency(task_id, depends_on_id, task_map)`:
it runs `has_path(depends_on_id, task_id)` with a fresh visited set. -/
def would_create_circular_dependency (task_id depends_on_id : Nat) (m : List Task) : Bool :=
  (hasPathFrom m task_id depends_on_id ∅).1

/-- One dependency edge: task `a` (as resolved through the task map)
lists `b` in its `dependencies`. -/
def depEdge (m : List Task) (a b : Nat) : Prop :=
  ∃ t, dictGet m a = some t ∧ b ∈ t.dependencies

/-- Reflexive-transitive reachability over dependency edges. -/
inductive Reaches (m : List Task) : Nat → Nat → Prop
  | refl (a : Nat) : Reaches m a a
  | step {a b c : Nat} : depEdge m a b → Reaches m b c → Reaches m a c

/-- The dependency-edge graph has no directed cycle: no edge `a → b`
with a path from `b` back to `a` (a directed cycle consists of exactly
one such edge plus such a return path). -/
def Acyclic (m : List Task) : Prop :=
  ∀ a b, depEdge m a b → ¬ Reaches m b a

/-- Outcome classification of `add_task_dependency` and of the
add path of `handle_task_dependencies` (which reports "Task not found"
when the target id is absent before `add_task_dependency` is reached). -/
inductive AddResult where
  | targetMissing
  | selfDependency
  | unknownTask
  | circular
  | added
  | alreadyPresent
deriving DecidableEq, Repr

/-- What one `add_task_dependency` call produces: the printed outcome,
the (possibly mutated) target task object, and whether the call itself
wrote `tasks.json` (the `json.dump` at the end of the success branch). -/
structure AddOutcome where
  result : AddResult
  task : Task
  persisted : Bool
deriving DecidableEq, Repr

/-- Embeds `add_task_dependency(task, depends_on_id, task_map, ...)`, checks in
source order: self-dependency, unknown `depends_on_id`, circular
dependency; then appends `depends_on_id` to the task's dependency list
if absent (writing `tasks.json`), else reports it is already present. -/
def add_task_dependency (task : Task) (depends_on_id : Nat) (task_map : List Task) :
    AddOutcome :=
  if task.id = depends_on_id then ⟨AddResult.selfDependency, task, false⟩
  else if (dictGet task_map depends_on_id).isNone then ⟨AddResult.unknownTask, task, false⟩
  else if would_create_circular_dependency task.id depends_on_id task_map then
    ⟨AddResult.circular, task, false⟩
  else
    let dependencies := task.dependencies
    if depends_on_id ∉ dependencies then
      ⟨AddResult.added, { task with dependencies := dependencies ++ [depends_on_id] }, true⟩
    else ⟨AddResult.alreadyPresent, task, false⟩

/-- The add path of `handle_task_dependencies`: resolve the target task
through the task map ("Task not found" when absent), then call
`add_task_dependency`. Python mutates the resolved task object in place,
and that object is the one the map returns for its id; the mutation is
modelled by replacing the entries carrying that id (observationally
equal through `dictGet`, which returns the shadowing entry). -/
def handle_add_dependency (tasks : List Task) (task_id depends_on_id : Nat) :
    AddResult × List Task × Bool :=
  match dictGet tasks task_id with
  | none => (AddResult.targetMissing, tasks, false)
  | some task =>
    let o := add_task_dependency task depends_on_id tasks
    if o.result = AddResult.added then
      (o.result, tasks.map (fun t => if t.id = task_id then o.task else t), o.persisted)
    else (o.result, tasks, o.persisted)

/-- An issue reported by `validate_all_dependencies`, one constructor per
format string: "Task #i depends on non-existent Task #d",
"Task #i depends on itself", "Circular dependency detected involving Task #i". -/
inductive Issue where
  | danglingReference (task_id dep_id : Nat)
  | selfDependency (task_id : Nat)
  | circularInvolving (task_id : Nat)
deriving DecidableEq, Repr

/-- Embeds `validate_all_dependencies(tasks)`: the first pass appends, per task and
per dependency id in order, a dangling-reference issue when the id is not
a key of the task map and a self-dependency issue when it equals the
task's own id; second pass appends a circular-dependency issue for every
task for which `would_create_circular_dependency(task_id, task_id, ...)`
holds. -/
def validate_all_dependencies (tasks : List Task) : List Issue :=
  (tasks.flatMap (fun task =>
    task.dependencies.flatMap (fun dep_id =>
      (if (dictGet tasks dep_id).isNone then [Issue.danglingReference task.id dep_id] else [])
        ++ (if dep_id = task.id then [Issue.selfDependency task.id] else []))))
  ++ tasks.filterMap (fun task =>
      if would_create_circular_dependency task.id task.id tasks then
        some (Issue.circularInvolving task.id)
      else none)

/-- Computes `priority_order.get(task.get('priority', 'medium'), 2)` with
`priority_order = {'high': 3, 'medium': 2, 'low': 1}`: a missing priority
falls back to `'medium'`, an unknown string to rank 2. -/
def priorityRank (t : Task) : Nat :=
  match t.priority.getD "medium" with
  | "high" => 3
  | "medium" => 2
  | "low" => 1
  | _ => 2

/-- Availability test from the loop body of `find_next_available_task`:
status is `'pending'` and every dependency id resolves through the task
map to a task whose status is `'completed'` (a missing id blocks). -/
def isAvailable (tasks : List Task) (t : Task) : Bool :=
  t.status == some "pending" &&
    t.dependencies.all (fun dep_id =>
      match dictGet tasks dep_id with
      | none => false
      | some dep_task => dep_task.status == some "completed")

/-- Holds when `a` may precede `b` in the output of
`sort(key=lambda t: (rank, id), reverse=True)`: the key of `a` is
lexicographically at least the key of `b`. -/
def rankKeyGE (a b : Task) : Bool :=
  decide (priorityRank b < priorityRank a)
    || (decide (priorityRank a = priorityRank b) && decide (b.id ≤ a.id))

/-- Embeds `find_next_available_task(tasks)`: collect the available tasks in
list order, then stably sort them descending by `(priority rank, id)`
(Python's `list.sort` with `reverse=True` is stable, as is `mergeSort`). -/
def find_next_available_task (tasks : List Task) : List Task :=
  (tasks.filter (fun t => isAvailable tasks t)).mergeSort rankKeyGE

/-- Fold a sequence of `addDependency` calls through the CLI add path,
each call operating on the task list the previous one produced. -/
def applyAdds (tasks : List Task) (ops : List (Nat × Nat)) : List Task :=
  ops.foldl (fun ts op => (handle_add_dependency ts op.1 op.2).2.1) tasks

/-- A call "succeeds" when it is not rejected: it appended the edge or
reported the informational already-present no-op. -/
def addSucceeds (r : AddResult) : Bool :=
  decide (r = AddResult.added) || decide (r = AddResult.alreadyPresent)

/-- Every call in the sequence individually succeeds, each judged against
the state produced by its predecessors. -/
def allSucceed (tasks : List Task) : List (Nat × Nat) → Bool
  | [] => true
  | op :: rest =>
    let r := handle_add_dependency tasks op.1 op.2
    addSucceeds r.1 && allSucceed r.2.1 rest

/-- All ids mentioned in dependency lists (the edge targets). -/
def depUniverse (m : List Task) : Finset Nat :=
  (m.map Task.dependencies).flatten.toFinset

/-- Total number of dependency edges in the document. -/
def numEdges (m : List Task) : Nat :=
  ((m.map Task.dependencies).map List.length).sum

/-- Two independent tasks, no dependencies, no status. -/
def exTask1 : Task := ⟨1, none, none, []⟩

def exTask2 : Task := ⟨2, none, none, []⟩

/-- Task 5 listing the non-existent dependency 99. -/
def exDangling : Task := ⟨5, none, none, [99]⟩

/-- A pre-existing malformed two-cycle 1 ↔ 2 with a dangling id 99. -/
def exCyc1 : Task := ⟨1, none, none, [2]⟩

def exCyc2 : Task := ⟨2, none, none, [1, 99]⟩

/-- Task 1 depending on task 2 (edge 1 → 2). -/
def exEdge1 : Task := ⟨1, none, none, [2]⟩

def exEdge2 : Task := ⟨2, none, none, []⟩

/-- The three pending dependency-free tasks of the ranking scenario. -/
def exPend1 : Task := ⟨1, some "pending", some "low", []⟩

def exPend2 : Task := ⟨2, some "pending", some "high", []⟩

def exPend3 : Task := ⟨3, some "pending", some "high", []⟩

/-- A single pending task without dependencies. -/
def exPendOnly : Task := ⟨1, some "pending", none, []⟩

theorem mem_of_dictGet {m : List Task} {i : Nat} {t : Task}
    (h : dictGet m i = some t) : t ∈ m := by
  have h1 : t ∈ m.reverse := List.mem_of_find?_eq_some h
  simpa using h1

theorem id_of_dictGet {m : List Task} {i : Nat} {t : Task}
    (h : dictGet m i = some t) : t.id = i := by
  have h1 := List.find?_some h
  simpa using h1

theorem mem_taskUniverse_of_dictGet {m : List Task} {i : Nat} {t : Task}
    (h : dictGet m i = some t) : i ∈ taskUniverse m := by
  have h1 : t ∈ m := mem_of_dictGet h
  have h2 : t.id = i := id_of_dictGet h
  simp only [taskUniverse, List.mem_toFinset, List.mem_map]
  exact ⟨t, h1, h2⟩

section
variable {m : List Task} {tgt u d : Nat} {visited : Finset Nat} {t : Task} {rest : List Nat}

theorem hasPathFrom_tgt : hasPathFrom m tgt tgt visited = (true, ⟨visited, Finset.Subset.refl _⟩) := by
  rw [hasPathFrom]
  simp

theorem hasPathFrom_visited (h1 : u ≠ tgt) (h2 : u ∈ visited) :
    hasPathFrom m tgt u visited = (false, ⟨visited, Finset.Subset.refl _⟩) := by
  rw [hasPathFrom]
  simp [h1, h2]

theorem hasPathFrom_none (h1 : u ≠ tgt) (h2 : u ∉ visited) (h3 : dictGet m u = none) :
    hasPathFrom m tgt u visited = (false, ⟨insert u visited, Finset.subset_insert _ _⟩) := by
  rw [hasPathFrom]
  rw [if_neg h1, dif_neg h2]
  split <;> simp_all

theorem hasPathFrom_some (h1 : u ≠ tgt) (h2 : u ∉ visited) (h3 : dictGet m u = some t) :
    (hasPathFrom m tgt u visited).1 = (hasPathList m tgt t.dependencies (insert u visited)).1 ∧
    ((hasPathFrom m tgt u visited).2 : Finset Nat) = ((hasPathList m tgt t.dependencies (insert u visited)).2 : Finset Nat) := by
  rw [hasPathFrom]
  rw [if_neg h1, dif_neg h2]
  split <;> simp_all

theorem hasPathList_nil : hasPathList m tgt [] visited = (false, ⟨visited, Finset.Subset.refl _⟩) := by
  rw [hasPathList]

theorem hasPathList_cons_true (h : (hasPathFrom m tgt d visited).1 = true) :
    hasPathList m tgt (d :: rest) visited = (true, (hasPathFrom m tgt d visited).2) := by
  rw [hasPathList]
  rcases hr : hasPathFrom m tgt d visited with ⟨b, w⟩
  rw [hr] at h
  simp at h
  subst h
  simp

theorem hasPathList_cons_false (h : (hasPathFrom m tgt d visited).1 = false) :
    (hasPathList m tgt (d :: rest) visited).1 =
      (hasPathList m tgt rest ((hasPathFrom m tgt d visited).2 : Finset Nat)).1 ∧
    ((hasPathList m tgt (d :: rest) visited).2 : Finset Nat) =
      ((hasPathList m tgt rest ((hasPathFrom m tgt d visited).2 : Finset Nat)).2 : Finset Nat) := by
  rw [hasPathList]
  rcases hr : hasPathFrom m tgt d visited with ⟨b, w⟩
  rw [hr] at h
  simp at h
  subst h
  simp

theorem hasPath_sound (m : List Task) (tgt : Nat) :
    (∀ u visited, (hasPathFrom m tgt u visited).1 = true → Reaches m u tgt) ∧
    (∀ ds visited, (hasPathList m tgt ds visited).1 = true → ∃ d ∈ ds, Reaches m d tgt) := by
  refine hasPathFrom.mutual_induct m tgt
    (fun u visited => (hasPathFrom m tgt u visited).1 = true → Reaches m u tgt)
    (fun ds visited => (hasPathList m tgt ds visited).1 = true → ∃ d ∈ ds, Reaches m d tgt)
    ?_ ?_ ?_ ?_ ?_ ?_ ?_
  · intro visited _
    exact Reaches.refl tgt
  · intro u visited h1 h2
    simp [hasPathFrom_visited h1 h2]
  · intro u visited h1 h2 h3
    simp [hasPathFrom_none h1 h2 h3]
  · intro u visited h1 h2 t h3 b w heq ih
    rw [(hasPathFrom_some h1 h2 h3).1, heq]
    intro hb
    rw [heq] at ih
    obtain ⟨d, hd, hr⟩ := ih hb
    exact Reaches.step ⟨t, h3, hd⟩ hr
  · intro visited
    simp [hasPathList_nil]
  · intro visited d rest w heq ih
    intro _
    refine ⟨d, List.mem_cons_self d rest, ih ?_⟩
    rw [heq]
  · intro visited d rest w heq1 b w2 heq2 ih1 ih2
    have hf : (hasPathFrom m tgt d visited).1 = false := by rw [heq1]
    rw [(hasPathList_cons_false hf).1, heq1]
    intro hb
    obtain ⟨d2, hd2, hr⟩ := ih2 hb
    exact ⟨d2, List.mem_cons_of_mem d hd2, hr⟩

theorem hasPath_false_spec (m : List Task) (tgt : Nat) :
    (∀ u visited, (hasPathFrom m tgt u visited).1 = false →
      u ∈ ((hasPathFrom m tgt u visited).2 : Finset Nat) ∧ u ≠ tgt ∧
      ∀ a ∈ ((hasPathFrom m tgt u visited).2 : Finset Nat), a ∉ visited →
        a ≠ tgt ∧ ∀ t, dictGet m a = some t →
          ∀ d ∈ t.dependencies, d ∈ ((hasPathFrom m tgt u visited).2 : Finset Nat)) ∧
    (∀ ds visited, (hasPathList m tgt ds visited).1 = false →
      (∀ d ∈ ds, d ∈ ((hasPathList m tgt ds visited).2 : Finset Nat) ∧ d ≠ tgt) ∧
      ∀ a ∈ ((hasPathList m tgt ds visited).2 : Finset Nat), a ∉ visited →
        a ≠ tgt ∧ ∀ t, dictGet m a = some t →
          ∀ d ∈ t.dependencies, d ∈ ((hasPathList m tgt ds visited).2 : Finset Nat)) := by
  refine hasPathFrom.mutual_induct m tgt _ _ ?_ ?_ ?_ ?_ ?_ ?_ ?_
  · intro visited
    simp [hasPathFrom_tgt]
  · intro u visited h1 h2
    simp only [hasPathFrom_visited h1 h2]
    intro _
    exact ⟨h2, h1, fun a ha hna => absurd ha hna⟩
  · intro u visited h1 h2 h3
    simp only [hasPathFrom_none h1 h2 h3]
    intro _
    refine ⟨Finset.mem_insert_self u visited, h1, ?_⟩
    intro a ha hna
    have hau : a = u := by
      rcases Finset.mem_insert.mp ha with h | h
      · exact h
      · exact absurd h hna
    subst hau
    exact ⟨h1, fun t ht => absurd ht (by simp [h3])⟩
  · intro u visited h1 h2 t h3 b w heq ih
    have hfst := (@hasPathFrom_some m tgt u visited t h1 h2 h3).1
    have hsnd := (@hasPathFrom_some m tgt u visited t h1 h2 h3).2
    rw [heq] at hfst hsnd ih
    simp only at hfst hsnd ih
    rw [hfst, hsnd]
    intro hb
    obtain ⟨hds, hcl⟩ := ih hb
    have husub : insert u visited ⊆ (w : Finset Nat) := w.2
    refine ⟨husub (Finset.mem_insert_self u visited), h1, ?_⟩
    intro a ha hna
    by_cases hau : a = u
    · subst hau
      refine ⟨h1, ?_⟩
      intro t2 ht2 d hd
      rw [h3] at ht2
      cases ht2
      exact (hds d hd).1
    · have hani : a ∉ insert u visited := by
        simp [Finset.mem_insert, hau, hna]
      exact hcl a ha hani
  · intro visited
    simp only [hasPathList_nil]
    intro _
    refine ⟨by simp, ?_⟩
    intro a ha hna
    exact absurd ha hna
  · intro visited d rest w heq ih
    have hfst : (hasPathFrom m tgt d visited).1 = true := by rw [heq]
    simp [hasPathList_cons_true hfst]
  · intro visited d rest w heq1 b w2 heq2 ih1 ih2
    have hf : (hasPathFrom m tgt d visited).1 = false := by rw [heq1]
    have hfst := (@hasPathList_cons_false m tgt d visited rest hf).1
    have hsnd := (@hasPathList_cons_false m tgt d visited rest hf).2
    rw [heq1] at ih1 hfst hsnd
    simp only at ih1 hfst hsnd
    rw [heq2] at hfst hsnd ih2
    simp only at hfst hsnd ih2
    rw [hfst, hsnd]
    intro hb
    obtain ⟨hd1, hd2, hcl1⟩ := ih1 trivial
    obtain ⟨hrest, hcl2⟩ := ih2 hb
    have hw12 : (w : Finset Nat) ⊆ (w2 : Finset Nat) := w2.2
    constructor
    · intro d2 hd
      rcases List.mem_cons.mp hd with h | h
      · subst h
        exact ⟨hw12 hd1, hd2⟩
      · exact hrest d2 h
    · intro a ha hna
      by_cases haw : a ∈ (w : Finset Nat)
      · obtain ⟨hat, hcla⟩ := hcl1 a haw hna
        exact ⟨hat, fun t2 ht2 d2 hd => hw12 (hcla t2 ht2 d2 hd)⟩
      · exact hcl2 a ha haw

theorem reaches_trans {m : List Task} {a b c : Nat}
    (h1 : Reaches m a b) (h2 : Reaches m b c) : Reaches m a c := by
  induction h1 with
  | refl _ => exact h2
  | step he _ ih => exact Reaches.step he (ih h2)

theorem no_reach_of_closed {m : List Task} {W : Finset Nat} {tgt : Nat}
    (hcl : ∀ a ∈ W, a ≠ tgt ∧ ∀ t, dictGet m a = some t → ∀ d ∈ t.dependencies, d ∈ W)
    {x y : Nat} (hr : Reaches m x y) : x ∈ W → y = tgt → False := by
  induction hr with
  | refl a =>
    intro hx hy
    subst hy
    exact (hcl a hx).1 rfl
  | step he _ ih =>
    intro hx hy
    obtain ⟨t, hdt, hmem⟩ := he
    exact ih ((hcl _ hx).2 t hdt _ hmem) hy

theorem hasPath_complete {m : List Task} {tgt u : Nat}
    (h : (hasPathFrom m tgt u ∅).1 = false) : ¬ Reaches m u tgt := by
  obtain ⟨hu, _, hcl⟩ := (hasPath_false_spec m tgt).1 u ∅ h
  intro hr
  exact no_reach_of_closed
    (fun a ha => hcl a ha (Finset.not_mem_empty a)) hr hu rfl

theorem wouldCreate_iff_reaches (task_id depends_on_id : Nat) (m : List Task) :
    would_create_circular_dependency task_id depends_on_id m = true ↔
      Reaches m depends_on_id task_id := by
  constructor
  · exact fun h => (hasPath_sound m task_id).1 depends_on_id ∅ h
  · intro hr
    by_contra hfalse
    exact hasPath_complete (Bool.eq_false_iff.mpr hfalse) hr

theorem mem_depUniverse {m : List Task} {t : Task} {d : Nat}
    (ht : t ∈ m) (hd : d ∈ t.dependencies) : d ∈ depUniverse m := by
  simp only [depUniverse, List.mem_toFinset, List.mem_flatten, List.mem_map]
  exact ⟨t.dependencies, ⟨t, ht, rfl⟩, hd⟩

theorem hasPath_visited_bound (m : List Task) (tgt : Nat) :
    (∀ u visited, ((hasPathFrom m tgt u visited).2 : Finset Nat) ⊆
      insert u (visited ∪ depUniverse m)) ∧
    (∀ ds visited, ((hasPathList m tgt ds visited).2 : Finset Nat) ⊆
      visited ∪ ds.toFinset ∪ depUniverse m) := by
  refine hasPathFrom.mutual_induct m tgt _ _ ?_ ?_ ?_ ?_ ?_ ?_ ?_
  · intro visited
    rw [hasPathFrom_tgt]
    intro x hx
    simp [Finset.mem_insert, Finset.mem_union, hx]
  · intro u visited h1 h2
    rw [hasPathFrom_visited h1 h2]
    intro x hx
    simp [Finset.mem_insert, Finset.mem_union, hx]
  · intro u visited h1 h2 h3
    rw [hasPathFrom_none h1 h2 h3]
    intro x hx
    rcases Finset.mem_insert.mp hx with h | h
    · simp [h]
    · simp [Finset.mem_insert, Finset.mem_union, h]
  · intro u visited h1 h2 t h3 b w heq ih
    have hsnd := (@hasPathFrom_some m tgt u visited t h1 h2 h3).2
    rw [heq] at hsnd ih
    simp only at hsnd ih
    rw [hsnd]
    intro x hx
    have hx2 := ih hx
    have hdep : t.dependencies.toFinset ⊆ depUniverse m := by
      intro y hy
      exact mem_depUniverse (mem_of_dictGet h3) (List.mem_toFinset.mp hy)
    simp only [Finset.mem_union, Finset.mem_insert] at hx2 ⊢
    rcases hx2 with (h | h) | h
    · rcases h with h | h
      · exact Or.inl h
      · exact Or.inr (Or.inl h)
    · exact Or.inr (Or.inr (hdep h))
    · exact Or.inr (Or.inr h)
  · intro visited
    rw [hasPathList_nil]
    intro x hx
    simp [Finset.mem_union, hx]
  · intro visited d rest w heq ih
    have hfst : (hasPathFrom m tgt d visited).1 = true := by rw [heq]
    rw [hasPathList_cons_true hfst]
    intro x hx
    have hx2 := ih hx
    simp only [Finset.mem_insert, Finset.mem_union, List.mem_toFinset,
      List.mem_cons] at hx2 ⊢
    tauto
  · intro visited d rest w heq1 b w2 heq2 ih1 ih2
    have hf : (hasPathFrom m tgt d visited).1 = false := by rw [heq1]
    have hsnd := (@hasPathList_cons_false m tgt d visited rest hf).2
    rw [heq1] at hsnd ih1
    simp only at hsnd ih1
    rw [heq2] at hsnd ih2
    simp only at hsnd ih2
    rw [hsnd]
    intro x hx
    have hx2 := ih2 hx
    simp only [Finset.mem_union, List.mem_toFinset] at hx2
    rcases hx2 with (h | h) | h
    · have hx3 := ih1 h
      simp only [Finset.mem_insert, Finset.mem_union, List.mem_toFinset,
        List.mem_cons] at hx3 ⊢
      tauto
    · simp only [Finset.mem_union, List.mem_toFinset, List.mem_cons]
      tauto
    · simp only [Finset.mem_union]
      tauto

theorem find?_congr_pred {α : Type} {p q : α → Bool} (h : ∀ a, p a = q a) :
    ∀ l : List α, l.find? p = l.find? q := by
  intro l
  induction l with
  | nil => rfl
  | cons a l ih => simp [List.find?_cons, h a, ih]

theorem dictGet_map_update {m : List Task} {A x : Nat} {t' : Task}
    (ht' : t'.id = A) :
    dictGet (m.map (fun t => if t.id = A then t' else t)) x =
      (dictGet m x).map (fun t => if t.id = A then t' else t) := by
  unfold dictGet
  rw [← List.map_reverse, List.find?_map]
  congr 1
  apply find?_congr_pred
  intro t
  by_cases h : t.id = A
  · simp [Function.comp, h, ht']
  · simp [Function.comp, h]

theorem dictGet_update_ne {m : List Task} {A x : Nat} {t' : Task}
    (ht' : t'.id = A) (hx : x ≠ A) :
    dictGet (m.map (fun t => if t.id = A then t' else t)) x = dictGet m x := by
  rw [dictGet_map_update ht']
  rcases hf : dictGet m x with _ | t0
  · rfl
  · have ht0 : t0.id = x := id_of_dictGet hf
    simp [Option.map, ht0, hx]

theorem dictGet_update_self {m : List Task} {A : Nat} {t0 t' : Task}
    (hA : dictGet m A = some t0) (ht' : t'.id = A) :
    dictGet (m.map (fun t => if t.id = A then t' else t)) A = some t' := by
  rw [dictGet_map_update ht', hA]
  have ht0 : t0.id = A := id_of_dictGet hA
  simp [Option.map, ht0]

theorem depEdge_update_iff {m : List Task} {A B x y : Nat} {task t' : Task}
    (hA : dictGet m A = some task) (ht' : t'.id = A)
    (hdeps : t'.dependencies = task.dependencies ++ [B]) :
    depEdge (m.map (fun t => if t.id = A then t' else t)) x y ↔
      (depEdge m x y ∨ (x = A ∧ y = B)) := by
  by_cases hx : x = A
  · subst hx
    rw [depEdge]
    rw [dictGet_update_self hA ht']
    constructor
    · rintro ⟨t, ht, hy⟩
      cases ht
      rw [hdeps] at hy
      rcases List.mem_append.mp hy with h | h
      · exact Or.inl ⟨task, hA, h⟩
      · exact Or.inr ⟨rfl, by simpa using h⟩
    · rintro (⟨t, ht, hy⟩ | ⟨_, hy⟩)
      · rw [hA] at ht
        cases ht
        exact ⟨_, rfl, by rw [hdeps]; exact List.mem_append.mpr (Or.inl hy)⟩
      · exact ⟨_, rfl, by rw [hdeps]; exact List.mem_append.mpr (Or.inr (by simp [hy]))⟩
  · rw [depEdge, dictGet_update_ne ht' hx]
    constructor
    · rintro ⟨t, ht, hy⟩
      exact Or.inl ⟨t, ht, hy⟩
    · rintro (⟨t, ht, hy⟩ | ⟨hxa, _⟩)
      · exact ⟨t, ht, hy⟩
      · exact absurd hxa hx

theorem reaches_update_decompose {m : List Task} {A B : Nat} {task t' : Task}
    (hA : dictGet m A = some task) (ht' : t'.id = A)
    (hdeps : t'.dependencies = task.dependencies ++ [B]) {x y : Nat}
    (hr : Reaches (m.map (fun t => if t.id = A then t' else t)) x y) :
    Reaches m x y ∨ (Reaches m x A ∧ Reaches m B y) := by
  induction hr with
  | refl a => exact Or.inl (Reaches.refl a)
  | step he _ ih =>
    rcases (depEdge_update_iff hA ht' hdeps).mp he with he' | ⟨hxA, hyB⟩
    · rcases ih with h | ⟨h1, h2⟩
      · exact Or.inl (Reaches.step he' h)
      · exact Or.inr ⟨Reaches.step he' h1, h2⟩
    · subst hxA
      subst hyB
      rcases ih with h | ⟨_, h2⟩
      · exact Or.inr ⟨Reaches.refl _, h⟩
      · exact Or.inr ⟨Reaches.refl _, h2⟩

theorem acyclic_update {m : List Task} {A B : Nat} {task t' : Task}
    (hac : Acyclic m) (hA : dictGet m A = some task) (ht' : t'.id = A)
    (hdeps : t'.dependencies = task.dependencies ++ [B]) (hnr : ¬ Reaches m B A) :
    Acyclic (m.map (fun t => if t.id = A then t' else t)) := by
  intro x y he hr
  rcases (depEdge_update_iff hA ht' hdeps).mp he with he' | ⟨hxA, hyB⟩
  · rcases reaches_update_decompose hA ht' hdeps hr with h | ⟨h1, h2⟩
    · exact hac x y he' h
    · exact hnr (reaches_trans h2 (reaches_trans (Reaches.step he' (Reaches.refl y)) h1))
  · subst hxA
    subst hyB
    rcases reaches_update_decompose hA ht' hdeps hr with h | ⟨h1, _⟩
    · exact hnr h
    · exact hnr h1

theorem add_task_dependency_added {task : Task} {did : Nat} {m : List Task}
    (h : (add_task_dependency task did m).result = AddResult.added) :
    task.id ≠ did ∧ (∃ t0, dictGet m did = some t0) ∧
    would_create_circular_dependency task.id did m = false ∧
    did ∉ task.dependencies ∧
    (add_task_dependency task did m).task =
      { task with dependencies := task.dependencies ++ [did] } := by
  unfold add_task_dependency at h ⊢
  by_cases h1 : task.id = did
  · rw [if_pos h1] at h
    simp at h
  · rw [if_neg h1] at h ⊢
    by_cases h2 : (dictGet m did).isNone = true
    · rw [if_pos h2] at h
      simp at h
    · rw [if_neg h2] at h ⊢
      by_cases h3 : would_create_circular_dependency task.id did m = true
      · rw [if_pos h3] at h
        simp at h
      · rw [if_neg h3] at h ⊢
        by_cases h4 : did ∉ task.dependencies
        · refine ⟨h1, ?_, Bool.eq_false_iff.mpr h3, h4, ?_⟩
          · rcases hd : dictGet m did with _ | t0
            · rw [hd] at h2
              simp at h2
            · exact ⟨t0, rfl⟩
          · simp only [if_pos h4]
        · simp only [if_neg h4] at h
          simp at h

theorem handle_added_spec {tasks : List Task} {A B : Nat}
    (h : (handle_add_dependency tasks A B).1 = AddResult.added) :
    ∃ task, dictGet tasks A = some task ∧ task.id = A ∧ A ≠ B ∧
      (∃ t0, dictGet tasks B = some t0) ∧
      ¬ Reaches tasks B A ∧ B ∉ task.dependencies ∧
      (handle_add_dependency tasks A B).2.1 =
        tasks.map (fun t => if t.id = A then
          { task with dependencies := task.dependencies ++ [B] } else t) := by
  unfold handle_add_dependency at h ⊢
  generalize hA : dictGet tasks A = oA at h ⊢
  rcases oA with _ | task
  · simp at h
  · simp only at h ⊢
    have hid : task.id = A := id_of_dictGet hA
    by_cases hres : (add_task_dependency task B tasks).result = AddResult.added
    · obtain ⟨hne, hsome, hwc, hmem, htask⟩ := add_task_dependency_added hres
      refine ⟨task, rfl, hid, ?_, hsome, ?_, hmem, ?_⟩
      · rw [← hid]; exact hne
      · rw [← hid]
        intro hr
        rw [← wouldCreate_iff_reaches] at hr
        rw [hwc] at hr
        cases hr
      · rw [if_pos hres, htask, hid]
    · rw [if_neg hres] at h
      exact absurd h hres

theorem handle_result_succeeds {tasks : List Task} {tid did : Nat}
    (h : addSucceeds (handle_add_dependency tasks tid did).1 = true) :
    (handle_add_dependency tasks tid did).1 = AddResult.added ∨
      ((handle_add_dependency tasks tid did).1 = AddResult.alreadyPresent ∧
        (handle_add_dependency tasks tid did).2.1 = tasks) := by
  simp only [addSucceeds, Bool.or_eq_true, decide_eq_true_eq] at h
  rcases h with h | h
  · exact Or.inl h
  · refine Or.inr ⟨h, ?_⟩
    unfold handle_add_dependency at h ⊢
    generalize hA : dictGet tasks tid = oA at h ⊢
    rcases oA with _ | task
    · rfl
    · simp only at h ⊢
      by_cases hres : (add_task_dependency task did tasks).result = AddResult.added
      · rw [if_pos hres] at h
        rw [hres] at h
        cases h
      · rw [if_neg hres]

theorem handle_preserves_acyclic {tasks : List Task} {tid did : Nat}
    (hac : Acyclic tasks)
    (h : addSucceeds (handle_add_dependency tasks tid did).1 = true) :
    Acyclic (handle_add_dependency tasks tid did).2.1 := by
  rcases handle_result_succeeds h with hadd | ⟨_, heq⟩
  · obtain ⟨task, hA, hid, _, _, hnr, _, hts⟩ := handle_added_spec hadd
    rw [hts]
    exact acyclic_update hac hA (by simpa using hid) rfl hnr
  · rw [heq]
    exact hac

theorem applyAdds_acyclic :
    ∀ (ops : List (Nat × Nat)) (tasks : List Task), Acyclic tasks →
      allSucceed tasks ops = true → Acyclic (applyAdds tasks ops) := by
  intro ops
  induction ops with
  | nil =>
    intro tasks hac _
    simpa [applyAdds] using hac
  | cons op rest ih =>
    intro tasks hac hall
    simp only [allSucceed, Bool.and_eq_true] at hall
    have h1 := handle_preserves_acyclic hac hall.1
    have h2 := ih _ h1 hall.2
    simpa [applyAdds, List.foldl_cons] using h2

theorem add_second_alreadyPresent {M tasks : List Task} {A B : Nat} {task t1 : Task}
    (hA : dictGet tasks A = some task)
    (ht1id : t1.id = A) (ht1deps : t1.dependencies = task.dependencies ++ [B])
    (hAB : A ≠ B) (ht0 : (dictGet tasks B).isSome = true) (hnr : ¬ Reaches tasks B A)
    (hM : M = tasks.map (fun t => if t.id = A then t1 else t)) :
    add_task_dependency t1 B M = ⟨AddResult.alreadyPresent, t1, false⟩ := by
  obtain ⟨t0, ht0'⟩ := Option.isSome_iff_exists.mp ht0
  have hgetB : dictGet M B = some t0 := by
    rw [hM, dictGet_update_ne ht1id (Ne.symm hAB)]
    exact ht0'
  have hwcA : would_create_circular_dependency A B M = false := by
    rw [Bool.eq_false_iff]
    intro h'
    rw [wouldCreate_iff_reaches] at h'
    rw [hM] at h'
    rcases reaches_update_decompose hA ht1id ht1deps h' with hh | ⟨hh, _⟩ <;> exact hnr hh
  have c1 : ¬(t1.id = B) := by
    rw [ht1id]
    exact hAB
  have c2 : ¬((dictGet M B).isNone = true) := by simp [hgetB]
  have c3 : ¬(would_create_circular_dependency t1.id B M = true) := by
    rw [ht1id, hwcA]
    simp
  have c4 : ¬(B ∉ t1.dependencies) := by
    rw [ht1deps]
    simp
  unfold add_task_dependency
  rw [if_neg c1, if_neg c2, if_neg c3]
  simp only [if_neg c4]

theorem handle_second_call {tasks : List Task} {A B : Nat}
    (h : (handle_add_dependency tasks A B).1 = AddResult.added) :
    handle_add_dependency ((handle_add_dependency tasks A B).2.1) A B =
      (AddResult.alreadyPresent, (handle_add_dependency tasks A B).2.1, false) := by
  obtain ⟨task, hA, hid, hAB, ⟨t0, ht0⟩, hnr, hmem, hts⟩ := handle_added_spec h
  rw [hts]
  generalize ht1 : ({ task with dependencies := task.dependencies ++ [B] } : Task) = t1
  have ht1id : t1.id = A := by
    rw [← ht1]
    simpa using hid
  have ht1deps : t1.dependencies = task.dependencies ++ [B] := by rw [← ht1]
  have hget1 : dictGet (tasks.map (fun t => if t.id = A then t1 else t)) A = some t1 :=
    dictGet_update_self hA ht1id
  have haddeq := add_second_alreadyPresent hA ht1id ht1deps hAB (by simp [ht0]) hnr rfl
  unfold handle_add_dependency
  rw [hget1]
  simp only [haddeq]
  simp

theorem depSatisfied_iff {tasks : List Task} {d : Nat} :
    (match dictGet tasks d with
      | none => false
      | some dep_task => dep_task.status == some "completed") = true ↔
      ∃ dt, dictGet tasks d = some dt ∧ dt.status = some "completed" := by
  rcases h : dictGet tasks d with _ | dt <;> simp [h]

theorem isAvailable_iff {tasks : List Task} {t : Task} :
    isAvailable tasks t = true ↔
      (t.status = some "pending" ∧
        ∀ d ∈ t.dependencies, ∃ dt, dictGet tasks d = some dt ∧
          dt.status = some "completed") := by
  simp only [isAvailable, Bool.and_eq_true, beq_iff_eq, List.all_eq_true]
  constructor
  · rintro ⟨h1, h2⟩
    exact ⟨h1, fun d hd => depSatisfied_iff.mp (h2 d hd)⟩
  · rintro ⟨h1, h2⟩
    exact ⟨h1, fun d hd => depSatisfied_iff.mpr (h2 d hd)⟩

theorem find_next_mem_iff {tasks : List Task} {t : Task} :
    t ∈ find_next_available_task tasks ↔
      (t ∈ tasks ∧ t.status = some "pending" ∧
        ∀ d ∈ t.dependencies, ∃ dt, dictGet tasks d = some dt ∧
          dt.status = some "completed") := by
  rw [find_next_available_task, List.mem_mergeSort, List.mem_filter]
  rw [and_congr_right_iff]
  intro _
  exact isAvailable_iff

theorem rankKeyGE_trans : ∀ a b c : Task,
    rankKeyGE a b = true → rankKeyGE b c = true → rankKeyGE a c = true := by
  intro a b c
  simp only [rankKeyGE, Bool.or_eq_true, Bool.and_eq_true, decide_eq_true_eq]
  omega

theorem rankKeyGE_total : ∀ a b : Task, (rankKeyGE a b || rankKeyGE b a) = true := by
  intro a b
  simp only [rankKeyGE, Bool.or_eq_true, Bool.and_eq_true, decide_eq_true_eq]
  omega

theorem find_next_sorted (tasks : List Task) :
    (find_next_available_task tasks).Pairwise (fun a b => rankKeyGE a b = true) := by
  have h := @List.sorted_mergeSort Task rankKeyGE
    (fun a b c => by
      intro h1 h2
      exact rankKeyGE_trans a b c h1 h2)
    (fun a b => rankKeyGE_total a b)
    (tasks.filter (fun t => isAvailable tasks t))
  simpa [find_next_available_task] using h

theorem acyclic_of_no_deps {m : List Task} (h : ∀ t ∈ m, t.dependencies = []) :
    Acyclic m := by
  intro a b he _
  obtain ⟨t, ht, hb⟩ := he
  rw [h t (mem_of_dictGet ht)] at hb
  cases hb

/-- C1: a graph that starts acyclic stays acyclic under any sequence of
individually succeeding `addDependency` calls. -/
theorem claim_C1_acyclicity_preserved (tasks : List Task) (ops : List (Nat × Nat))
    (hac : Acyclic tasks) (hall : allSucceed tasks ops = true) :
    Acyclic (applyAdds tasks ops) :=
  applyAdds_acyclic ops tasks hac hall

unseal hasPathFrom hasPathList in
theorem claim_C1_witness :
    Acyclic [exTask1, exTask2] ∧ allSucceed [exTask1, exTask2] [(1, 2)] = true ∧
      Acyclic (applyAdds [exTask1, exTask2] [(1, 2)]) :=
  have h1 : Acyclic [exTask1, exTask2] := acyclic_of_no_deps (by
    intro t ht
    rcases List.mem_cons.mp ht with h | h
    · rw [h]; rfl
    · rw [List.mem_singleton.mp h]; rfl)
  ⟨h1, by decide, claim_C1_acyclicity_preserved [exTask1, exTask2] [(1, 2)] h1 (by decide)⟩

/-- C2: `find_next_available_task` returns a task iff it is in the list,
pending, and every dependency id resolves to a completed task. -/
theorem claim_C2_availability (tasks : List Task) (t : Task) :
    t ∈ find_next_available_task tasks ↔
      (t ∈ tasks ∧ t.status = some "pending" ∧
        ∀ d ∈ t.dependencies, ∃ dt, dictGet tasks d = some dt ∧
          dt.status = some "completed") :=
  find_next_mem_iff

unseal hasPathFrom hasPathList in
/-- C3: on the graph whose only task 5 lists the dangling dependency 99,
`validate_all_dependencies` reports the dangling reference AND flags task 5
as circular, because `would_create_circular_dependency(t, t, ...)` is
`has_path(t, t)`, which returns true immediately for every task. -/
theorem claim_C3_validate_output :
    validate_all_dependencies [exDangling] =
      [Issue.danglingReference 5 99, Issue.circularInvolving 5] := by decide

unseal List.mergeSort List.merge in
/-- C4: the result of `find_next_available_task` is ordered by descending
(priority rank, id) lexicographically, and the concrete ranking scenario
returns tasks 3, 2, 1 in that order. -/
theorem claim_C4_ranking :
    (∀ tasks : List Task,
      (find_next_available_task tasks).Pairwise (fun a b => rankKeyGE a b = true)) ∧
    find_next_available_task [exPend1, exPend2, exPend3] = [exPend3, exPend2, exPend1] :=
  ⟨find_next_sorted, by decide⟩

/-- C5: with the target task distinct from an existing `depends_on_id`,
`add_task_dependency` reports a circular dependency exactly when a
dependency path already leads from `depends_on_id` back to the task,
and in that case the task is left unchanged. -/
theorem claim_C5_cycle_rejection (task : Task) (depends_on_id : Nat) (m : List Task)
    (h1 : task.id ≠ depends_on_id) (h2 : (dictGet m depends_on_id).isSome = true) :
    ((add_task_dependency task depends_on_id m).result = AddResult.circular ↔
      Reaches m depends_on_id task.id) ∧
    ((add_task_dependency task depends_on_id m).result = AddResult.circular →
      (add_task_dependency task depends_on_id m).task = task) := by
  have h2' : ¬((dictGet m depends_on_id).isNone = true) := by
    rcases ho : dictGet m depends_on_id with _ | t0
    · rw [ho] at h2; cases h2
    · simp
  unfold add_task_dependency
  rw [if_neg h1, if_neg h2']
  by_cases h3 : would_create_circular_dependency task.id depends_on_id m = true
  · rw [if_pos h3]
    refine ⟨⟨fun _ => ?_, fun _ => rfl⟩, fun _ => rfl⟩
    exact (wouldCreate_iff_reaches task.id depends_on_id m).mp h3
  · rw [if_neg h3]
    constructor
    · constructor
      · intro hr
        by_cases h4 : depends_on_id ∉ task.dependencies <;> simp [h4] at hr
      · intro hr
        exact absurd ((wouldCreate_iff_reaches task.id depends_on_id m).mpr hr) h3
    · intro hr
      by_cases h4 : depends_on_id ∉ task.dependencies <;> simp [h4] at hr

theorem claim_C5_witness :
    exEdge2.id ≠ 1 ∧ (dictGet [exEdge1, exEdge2] 1).isSome = true ∧
      (add_task_dependency exEdge2 1 [exEdge1, exEdge2]).result = AddResult.circular :=
  ⟨by decide, by decide,
    (claim_C5_cycle_rejection exEdge2 1 [exEdge1, exEdge2] (by decide) (by decide)).1.mpr
      (Reaches.step ⟨exEdge1, rfl, by decide⟩ (Reaches.refl 2))⟩

/-- C6: `add_task_dependency` rejects a self-dependency first, for every
task and every task map (the target need not be a key of the map), leaving
the task unchanged and writing nothing. -/
theorem claim_C6_self_dependency (task : Task) (m : List Task) :
    add_task_dependency task task.id m = ⟨AddResult.selfDependency, task, false⟩ := by
  unfold add_task_dependency
  rw [if_pos rfl]

/-- C7: a successful add appends the new id at the end of the dependency
list (only when absent), and repeating the same call is the informational
already-present no-op that leaves the task list unchanged. -/
theorem claim_C7_idempotent (tasks : List Task) (A B : Nat)
    (h : (handle_add_dependency tasks A B).1 = AddResult.added) :
    (∃ task, dictGet tasks A = some task ∧ B ∉ task.dependencies ∧
      dictGet ((handle_add_dependency tasks A B).2.1) A =
        some { task with dependencies := task.dependencies ++ [B] }) ∧
    handle_add_dependency ((handle_add_dependency tasks A B).2.1) A B =
      (AddResult.alreadyPresent, (handle_add_dependency tasks A B).2.1, false) := by
  obtain ⟨task, hA, hid, hAB, hB, hnr, hmem, hts⟩ := handle_added_spec h
  refine ⟨⟨task, hA, hmem, ?_⟩, handle_second_call h⟩
  rw [hts]
  exact dictGet_update_self hA (by simpa using hid)

unseal hasPathFrom hasPathList in
theorem claim_C7_witness :
    (handle_add_dependency [exTask1, exTask2] 1 2).1 = AddResult.added ∧
    handle_add_dependency ((handle_add_dependency [exTask1, exTask2] 1 2).2.1) 1 2 =
      (AddResult.alreadyPresent, (handle_add_dependency [exTask1, exTask2] 1 2).2.1,
        false) :=
  ⟨by decide, (claim_C7_idempotent [exTask1, exTask2] 1 2 (by decide)).2⟩

unseal hasPathFrom hasPathList in
/-- C8 counterexample: a successful `add_task_dependency` call does write
the task document itself (the `json.dump` in its success branch), so the
claim that no invocation persists anything fails on this input. -/
theorem claim_C8_counterexample :
    (add_task_dependency exTask1 2 [exTask1, exTask2]).result = AddResult.added ∧
      (add_task_dependency exTask1 2 [exTask1, exTask2]).persisted = true := by decide

/-- C8 amended: `add_task_dependency` writes `tasks.json` itself exactly
when it appends a new dependency; every rejection and the already-present
no-op write nothing. -/
theorem claim_C8_persist_iff_added (task : Task) (depends_on_id : Nat) (m : List Task) :
    (add_task_dependency task depends_on_id m).persisted = true ↔
      (add_task_dependency task depends_on_id m).result = AddResult.added := by
  unfold add_task_dependency
  simp only []
  split_ifs <;> simp

unseal hasPathFrom hasPathList in
/-- C9: the cycle check visits only the start node and ids named in
dependency lists, each at most once (the visited set), so its work is
bounded by the number of tasks plus edges; it also terminates and answers
on graphs that already contain cycles or dangling ids. -/
theorem claim_C9_termination_bound :
    (∀ (m : List Task) (task_id depends_on_id : Nat),
      ((hasPathFrom m task_id depends_on_id ∅).2 : Finset Nat) ⊆
        insert depends_on_id (depUniverse m) ∧
      ((hasPathFrom m task_id depends_on_id ∅).2 : Finset Nat).card ≤
        m.length + numEdges m + 1) ∧
    would_create_circular_dependency 1 2 [exCyc1, exCyc2] = true ∧
    would_create_circular_dependency 1 3 [exCyc1, exCyc2] = false := by
  refine ⟨?_, by decide, by decide⟩
  intro m task_id depends_on_id
  have hsub := (hasPath_visited_bound m task_id).1 depends_on_id ∅
  have hsub' : ((hasPathFrom m task_id depends_on_id ∅).2 : Finset Nat) ⊆
      insert depends_on_id (depUniverse m) := by
    intro x hx
    have := hsub hx
    simpa using this
  refine ⟨hsub', ?_⟩
  have h1 : ((hasPathFrom m task_id depends_on_id ∅).2 : Finset Nat).card ≤
      (insert depends_on_id (depUniverse m)).card := Finset.card_le_card hsub'
  have h2 : (insert depends_on_id (depUniverse m)).card ≤ (depUniverse m).card + 1 :=
    Finset.card_insert_le _ _
  have h3 : (depUniverse m).card ≤ numEdges m := by
    have hlen : ((m.map Task.dependencies).flatten).toFinset.card ≤
        ((m.map Task.dependencies).flatten).length :=
      List.toFinset_card_le ((m.map Task.dependencies).flatten)
    simpa [depUniverse, numEdges] using hlen
  omega

/-- C10: a task whose record carries no status field is never returned by
`find_next_available_task`: membership in the result forces the status to
be literally `pending`. -/
theorem claim_C10_missing_status (tasks : List Task) (t : Task)
    (h : t ∈ find_next_available_task tasks) : t.status = some "pending" :=
  (find_next_mem_iff.mp h).2.1

unseal List.mergeSort List.merge in
theorem claim_C10_witness :
    exPendOnly ∈ find_next_available_task [exPendOnly] ∧
      exPendOnly.status = some "pending" :=
  ⟨by decide, claim_C10_missing_status [exPendOnly] exPendOnly (by decide)⟩

end
end AutoPrdgen
